import Mathlib

/- Verification development for the unicode-gacha repository.

   Shallow embedding of src/lib/unicode.ts (class UnicodeData, class Pool,
   class UnicodeBMPPool) and, where noted, of the variant in
   src/unnamed/part_000.  JS numbers are modelled as Int (they are integral
   everywhere the claims look, except pool weights and random values, which
   are modelled as rationals); JS strings are Lean strings manipulated
   through structural character-list helpers so that concrete runs evaluate
   inside the kernel.  JS objects used as integer-keyed maps are modelled as
   functions to Option. -/

namespace UniGacha

/-! JS string and number primitives -/

/-- Whether the first list is a prefix of the second (on characters). -/
def isPrefixChars : List Char → List Char → Bool
  | [], _ => true
  | _ :: _, [] => false
  | p :: ps, c :: cs => p == c && isPrefixChars ps cs

/-- Fuel-driven splitter behind jsSplit; called with fuel ≥ list length + 1
so the fuel never runs out.  Mirrors JS String.prototype.split with a
non-empty separator. -/
def splitFuel (sep : List Char) : Nat → List Char → List Char → List (List Char)
  | 0, _, acc => [acc.reverse]
  | _ + 1, [], acc => [acc.reverse]
  | n + 1, c :: cs, acc =>
    if sep ≠ [] ∧ isPrefixChars sep (c :: cs) then
      acc.reverse :: splitFuel sep n (List.drop (sep.length - 1) cs) []
    else
      splitFuel sep n cs (c :: acc)

/-- JS s.split(sep) for a non-empty separator sep. -/
def jsSplit (s sep : String) : List String :=
  (splitFuel sep.data (s.data.length + 1) s.data []).map (fun l => ⟨l⟩)

/-- JS s.startsWith(p). -/
def jsStartsWith (s p : String) : Bool :=
  isPrefixChars p.data s.data

/-- JS s.endsWith(p). -/
def jsEndsWith (s p : String) : Bool :=
  isPrefixChars p.data.reverse s.data.reverse

/-- JS s.slice(n) for n ≥ 0: drop the first n UTF-16 units (code points in
this model; all relevant data is in the BMP). -/
def strDrop (s : String) (n : Nat) : String :=
  ⟨s.data.drop n⟩

/-- Drop the last n characters; mirrors the end = −n argument of JS slice,
clamping at the empty string. -/
def strDropRight (s : String) (n : Nat) : String :=
  ⟨s.data.take (s.data.length - n)⟩

/-- JS s.toUpperCase() (ASCII letters; every string the claims touch is
ASCII). -/
def strToUpper (s : String) : String :=
  ⟨s.data.map Char.toUpper⟩

/-- Substring search behind jsIncludes. -/
def hasSubstr : List Char → List Char → Bool
  | [], pat => pat.isEmpty
  | c :: cs, pat => isPrefixChars pat (c :: cs) || hasSubstr cs pat

/-- JS s.includes(pat). -/
def jsIncludes (s pat : String) : Bool :=
  hasSubstr s.data pat.data

/-- Whether JS s.trim() is the empty string. -/
def isBlank (s : String) : Bool :=
  s.data.all Char.isWhitespace

/-- Hexadecimal digit test, as accepted by JS parseInt(-, 16). -/
def isHexDigitCh (c : Char) : Bool :=
  ('0' ≤ c && c ≤ '9') || ('a' ≤ c && c ≤ 'f') || ('A' ≤ c && c ≤ 'F')

/-- Value of a hexadecimal digit. -/
def hexVal (c : Char) : Nat :=
  if c ≤ '9' then c.toNat - 48 else if c ≤ 'F' then c.toNat - 55 else c.toNat - 87

/-- Fold a list of hex digits into a number. -/
def hexNatOfChars (l : List Char) : Nat :=
  l.foldl (fun a c => 16 * a + hexVal c) 0

/-- JS parseInt(s, 16): skip leading whitespace, optional sign, optional
0x/0X prefix, then the longest run of hex digits; none models NaN. -/
def jsParseIntHex (s : String) : Option Int :=
  let l0 := s.data.dropWhile Char.isWhitespace
  let sign : Int := match l0 with
    | '-' :: _ => -1
    | _ => 1
  let l1 := match l0 with
    | '-' :: rest => rest
    | '+' :: rest => rest
    | _ => l0
  let l2 := match l1 with
    | '0' :: 'x' :: rest => rest
    | '0' :: 'X' :: rest => rest
    | _ => l1
  let digits := l2.takeWhile isHexDigitCh
  if digits.isEmpty then none else some (sign * (hexNatOfChars digits : Nat))

/-- One lowercase hexadecimal digit. -/
def hexDigitChar (n : Nat) : Char :=
  if n < 10 then Char.ofNat (48 + n) else Char.ofNat (87 + n)

/-- Fuel-driven hex rendering, most significant digit first; any fuel ≥ n
gives the full rendering. -/
def hexCharsFuel : Nat → Nat → List Char
  | 0, _ => []
  | _ + 1, 0 => []
  | fuel + 1, n => hexCharsFuel fuel (n / 16) ++ [hexDigitChar (n % 16)]

/-- JS n.toString(16) for a natural number (lowercase digits). -/
def natToHex (n : Nat) : String :=
  if n = 0 then "0" else ⟨hexCharsFuel n n⟩

/-- JS n.toString(16) for an integer. -/
def intToHex (i : Int) : String :=
  if i < 0 then "-" ++ natToHex i.natAbs else natToHex i.toNat

/-- JS s.padStart(6, "0"). -/
def padStart6 (s : String) : String :=
  ⟨List.replicate (6 - s.data.length) '0'⟩ ++ s

/-- JS ToInt32: reduce an integer into the signed 32-bit range. -/
def toInt32 (n : Int) : Int :=
  (n + 2 ^ 31).emod (2 ^ 32) - 2 ^ 31

/-- The floor-mod helper defined inside loadBlocks: (n % m + m) % m with the
JS remainder operator (sign of the dividend), here Int.tmod. -/
def jsMod (n m : Int) : Int :=
  ((n.tmod m) + m).tmod m

/-- JS String.fromCharCode: the argument reduced to a UTF-16 code unit. -/
def fromCharCode16 (i : Int) : Nat :=
  (i.emod 65536).toNat

/-- JS template interpolation of a possibly-undefined string. -/
def optStr : Option String → String
  | none => "undefined"
  | some s => s

/-- JS `x || d` on a possibly-undefined string: undefined and "" are falsy. -/
def jsOrElse (o : Option String) (d : String) : String :=
  match o with
  | none => d
  | some s => if s = "" then d else s

/-! Data model: the record types of src/lib/unicode.ts.  A field that JS
may leave undefined (a missing array slot after split) is an Option. -/

/-- Interface CodePointData.  The id is none when parseInt returned NaN. -/
structure CodePointData where
  id : Option Int
  name : Option String
  general_category : Option String
  canonical_combining_class : Option String
  bidi_class : Option String
  decomposition_type : Option String
  decomposition_mapping : Option String
  numeric_type : Option String
  numeric_value : Option String
  bidi_mirrored : Option String
  unicode_1_name : Option String
  iso_comment : Option String
  simple_uppercase_mapping : Option String
  simple_lowercase_mapping : Option String
  simple_titlecase_mapping : Option String
deriving DecidableEq, Repr

/-- Interface BlockData; stop embeds the field named end in the source. -/
structure BlockData where
  id : Int
  start : Option Int
  stop : Option Int
  name : Option String
  color : String
deriving DecidableEq, Repr

/-- Interface CJKReading.  Only well-formed readings (both fields present)
appear in the claims, so the fields are plain strings. -/
structure CJKReading where
  field : String
  text : String
deriving DecidableEq, Repr

/-- Interface PoolItem of src/lib/unicode.ts. -/
structure PoolItem where
  id : Int
  weight : ℚ
deriving DecidableEq, Repr

/-- Interface CardData; char holds the single UTF-16 code unit of the JS
one-unit string String.fromCharCode(id). -/
structure CardData where
  id : Int
  name : Option String
  description : String
  char : Nat
  blockName : String
  blockColor : String
deriving DecidableEq, Repr

/-! Record parsers (UnicodeData.parseCodePoint, UnicodeData.parseBlock).
parseLine of src/unnamed/part_000 is character-identical to parseCodePoint
and is embedded by the same definition. -/

/-- UnicodeData.parseCodePoint: split on ";" and map the fields
positionally. -/
def parseCodePoint (line : String) : CodePointData :=
  let l := jsSplit line ";"
  { id := jsParseIntHex (l.getD 0 "")
    name := l.get? 1
    general_category := l.get? 2
    canonical_combining_class := l.get? 3
    bidi_class := l.get? 4
    decomposition_type := l.get? 5
    decomposition_mapping := l.get? 6
    numeric_type := l.get? 7
    numeric_value := l.get? 8
    bidi_mirrored := l.get? 9
    unicode_1_name := l.get? 10
    iso_comment := l.get? 11
    simple_uppercase_mapping := l.get? 12
    simple_lowercase_mapping := l.get? 13
    simple_titlecase_mapping := l.get? 14 }

/-- UnicodeData.parseBlock: field 0 is a START..END hex range, field 1 the
block name.  parseInt of a missing piece is NaN, hence none. -/
def parseBlock (line : String) : BlockData :=
  let l := jsSplit line ";"
  let range := jsSplit (l.getD 0 "") ".."
  { id := 0
    start := jsParseIntHex (range.getD 0 "")
    stop := match range.get? 1 with
      | some s => jsParseIntHex s
      | none => none
    name := l.get? 1
    color := "" }

/-! Hangul syllable naming and range expansion
(UnicodeData.getHangulSyllableName, UnicodeData.addRange). -/

/-- The 19 initial consonants of UnicodeData.getHangulSyllableName. -/
def hangulInitials : List String :=
  ["g", "gg", "n", "d", "dd", "r", "m", "b", "bb", "s", "ss", "", "j", "jj", "ch", "k", "t", "p", "h"]

/-- The 21 vowels of UnicodeData.getHangulSyllableName. -/
def hangulVowels : List String :=
  ["a", "ae", "ya", "yae", "eo", "e", "yeo", "ye", "o", "wa", "wae", "oe", "yo", "u", "weo", "we", "wi", "yu", "eu", "ui", "i"]

/-- The 28 finals of UnicodeData.getHangulSyllableName (first entry empty). -/
def hangulFinals : List String :=
  ["", "g", "gg", "gs", "n", "nj", "nh", "d", "l", "lg", "lm", "lb", "ls", "lt", "lp", "lh", "m", "b", "bs", "s", "ss", "ng", "j", "ch", "k", "t", "p", "h"]

/-- JS array indexing inside a template literal: out-of-range or negative
indices give undefined, interpolated as the string "undefined". -/
def tableGet (l : List String) (i : Int) : String :=
  if 0 ≤ i then optStr (l.get? i.toNat) else "undefined"

/-- UnicodeData.getHangulSyllableName.  Math.floor of a JS division is
Int.fdiv; the JS remainder operator is Int.tmod. -/
def getHangulSyllableName (id : Int) : String :=
  let order := id - 0xAC00
  tableGet hangulInitials (order.fdiv 588)
    ++ tableGet hangulVowels ((order.tmod 588).fdiv 28)
    ++ tableGet hangulFinals (order.tmod 28)

/-- The record UnicodeData.addRange synthesizes for one id: the closing
record's fields with the id overwritten and the name rebuilt from the
stripped tag (Hangul romanization when the tag mentions Hangul, otherwise
the upper-cased tag-space-hex form). -/
def rangeRecord (rangeName : String) (cpd : CodePointData) (id : Int) : CodePointData :=
  { cpd with
      id := some id
      name := some (if jsIncludes rangeName "Hangul" then
          strToUpper (rangeName ++ " " ++ getHangulSyllableName id)
        else
          strToUpper (rangeName ++ " " ++ intToHex id)) }

/-- UnicodeData.addRange: store a synthesized record for every id in
[rangeFirst, rangeLast] (an empty loop when rangeFirst > rangeLast). -/
def addRange (rangeFirst rangeLast : Int) (rangeName : String)
    (cpd : CodePointData) (data : Int → Option CodePointData) :
    Int → Option CodePointData :=
  (List.range (rangeLast + 1 - rangeFirst).toNat).foldl
    (fun d (k : Nat) => fun j =>
      if j = rangeFirst + (k : Int) then some (rangeRecord rangeName cpd (rangeFirst + (k : Int)))
      else d j)
    data

/-! The code-point loader (UnicodeData.addUnicodeData).  The file content is
abstracted to the string the source splits on newlines; the JS object
this.data is a map Int → Option CodePointData.  A line whose name slot is
missing would make name.endsWith throw in JS, aborting the load with the
records stored so far kept: the crashed flag models that abort. -/

/-- The all-absent code-point map. -/
def emptyCPMap : Int → Option CodePointData :=
  fun _ => none

/-- Loader state: the map built so far, the pending range start (initially
0) and whether a JS TypeError has aborted the loop. -/
structure LoadState where
  data : Int → Option CodePointData
  rangeFirst : Int
  crashed : Bool

/-- One iteration of the line loop of UnicodeData.addUnicodeData.  A NaN id
passes the bound test (NaN comparisons are false) and is then dropped by the
isNaN test, so the none branch drops it directly. -/
def loaderStep (rangeStart rangeEnd : Int) (st : LoadState) (line : String) : LoadState :=
  if st.crashed then st
  else if jsStartsWith line "#" then st
  else
    let cpd := parseCodePoint line
    match cpd.id with
    | none => st
    | some id =>
      if id < rangeStart ∨ id > rangeEnd then st
      else
        match cpd.name with
        | none => { st with crashed := true }
        | some nm =>
          if jsEndsWith nm ">" then
            if jsEndsWith nm "First>" then { st with rangeFirst := id }
            else if jsEndsWith nm "Last>" then
              let rangeName := strDropRight (strDrop nm 1) 7
              if jsIncludes rangeName "CJK" || jsIncludes rangeName "Hangul" then
                { st with data := addRange st.rangeFirst id rangeName cpd st.data }
              else st
            else st
          else
            { st with data := fun j => if j = id then some cpd else st.data j }

/-- UnicodeData.addUnicodeData run on a file content, starting from the map
initData (empty on a fresh instance). -/
def addUnicodeData (initData : Int → Option CodePointData) (content : String)
    (rangeStart rangeEnd : Int) : LoadState :=
  (jsSplit content "\n").foldl (loaderStep rangeStart rangeEnd) ⟨initData, 0, false⟩

/-! The Unicode index (class UnicodeData) and its lookups. -/

/-- The state of a UnicodeData instance: the three maps. -/
structure UnicodeData where
  data : Int → Option CodePointData
  blocks : List BlockData
  cjkData : Int → List CJKReading

/-- UnicodeData.getCodePoint: exact map lookup. -/
def getCodePoint (u : UnicodeData) (id : Int) : Option CodePointData :=
  u.data id

/-- The containment test of the block scan; a NaN bound compares false. -/
def blockHasCp (b : BlockData) (cp : Int) : Bool :=
  (match b.start with
    | some s => decide (s ≤ cp)
    | none => false)
  && (match b.stop with
    | some e => decide (cp ≤ e)
    | none => false)

/-- UnicodeData.getBlock: first block containing the point (the source's
early return for an empty block list coincides with find? on []). -/
def getBlock (u : UnicodeData) (cp : Int) : Option BlockData :=
  u.blocks.find? (fun b => blockHasCp b cp)

/-- UnicodeData.getCJKReading: the reading list, empty when absent. -/
def getCJKReading (u : UnicodeData) (id : Int) : List CJKReading :=
  u.cjkData id

/-- JS Array.prototype.join. -/
def joinSep (sep : String) : List String → String
  | [] => ""
  | s :: ss => ss.foldl (fun a t => a ++ sep ++ t) s

/-- UnicodeData.getCardData. -/
def getCardData (u : UnicodeData) (id : Int) : Option CardData :=
  match getCodePoint u id with
  | none => none
  | some cpd =>
    let cjkReadings := getCJKReading u id
    let block := getBlock u id
    let description :=
      "Name: " ++ optStr cpd.name
        ++ "\nBlock: " ++ jsOrElse (block.bind (fun b => b.name)) "Unknown"
        ++ "\n" ++ joinSep "\n" (cjkReadings.map (fun r => strDrop r.field 1 ++ ": " ++ r.text))
    some { id := id
           name := cpd.name
           description := description
           char := fromCharCode16 id
           blockName := jsOrElse (block.bind (fun b => b.name)) ""
           blockColor := jsOrElse (block.map (fun b => b.color)) "#ffffff" }

/-! The block loader (UnicodeData.loadBlocks). -/

/-- One step of the name-hash reduce: ((hash << 5) - hash) + charCode with
the JS 32-bit shift.  The fold runs over the name's UTF-16 units; block
names are BMP text, where units and characters coincide. -/
def hashStep (h : Int) (c : Char) : Int :=
  toInt32 (toInt32 h * 32) - h + (c.toNat : Int)

/-- The reduce over name.split("") in loadBlocks. -/
def jsStringHash (s : String) : Int :=
  s.data.foldl hashStep 0

/-- The color string loadBlocks derives from a block name. -/
def blockColorOf (nm : String) : String :=
  "#" ++ padStart6 (natToHex ((jsMod (jsStringHash nm) 0xFFFFFF).toNat))

/-- Block-loader state: list so far, next sequential id, abort flag (an
undefined name would make name.split throw). -/
structure BlocksState where
  blocks : List BlockData
  nextId : Int
  crashed : Bool

/-- One iteration of the line loop of UnicodeData.loadBlocks. -/
def blocksStep (st : BlocksState) (line : String) : BlocksState :=
  if st.crashed then st
  else if jsStartsWith line "#" || isBlank line then st
  else
    let bd := parseBlock line
    match bd.name with
    | none => { st with crashed := true }
    | some nm =>
      { st with
          blocks := st.blocks ++ [{ bd with id := st.nextId, color := blockColorOf nm }]
          nextId := st.nextId + 1 }

/-- UnicodeData.loadBlocks run on a file content. -/
def loadBlocks (content : String) : BlocksState :=
  (jsSplit content "\n").foldl blocksStep ⟨[], 0, false⟩

/-! The weighted pool (class Pool). -/

/-- The reduce computing totalWeight in Pool.draw. -/
def totalWeight (items : List PoolItem) : ℚ :=
  items.foldl (fun s it => s + it.weight) 0

/-- The inner scan of Pool.draw: first item whose weight exceeds the
remaining random value, subtracting skipped weights; none when the scan
falls off the end (then nothing is pushed). -/
def selectOne : List PoolItem → ℚ → Option PoolItem
  | [], _ => none
  | it :: rest, v => if v < it.weight then some it else selectOne rest (v - it.weight)

/-- Pool.draw.  rand i models the value Math.random() * totalWeight drawn
at loop iteration i (the random source is an oracle for that product). -/
def draw (items : List PoolItem) (amount : Int) (rand : Nat → ℚ) : List PoolItem :=
  if items.length = 0 ∨ amount ≤ 0 then []
  else
    (List.range amount.toNat).foldl
      (fun res i =>
        match selectOne items (rand i) with
        | some it => res ++ [it]
        | none => res) []

/-! The BMP pools.  buildBMPItems embeds UnicodeBMPPool.initialize of
src/lib/unicode.ts (no lazy index load there: it only seeds items).  The
p0 definitions embed the UnicodeBMPPool of src/unnamed/part_000, whose
constructor and initialize carry the lazy, flag-guarded index load. -/

/-- UnicodeBMPPool.initialize of src/lib/unicode.ts: append one weight-1
item per id in [0, 65535] present in the backing index. -/
def buildBMPItems (u : UnicodeData) (items : List PoolItem) : List PoolItem :=
  (List.range 65536).foldl
    (fun acc (id : Nat) =>
      match getCodePoint u (id : Int) with
      | none => acc
      | some _ => acc ++ [⟨(id : Int), 1⟩]) items

/-- PoolItem of src/unnamed/part_000 (it also carries name, description and
the literal character). -/
structure P0Item where
  id : Int
  name : Option String
  description : String
  char : Nat
  weight : ℚ
deriving DecidableEq, Repr

/-- UnicodeBMPPool state of src/unnamed/part_000: items, the backing map
and the unicodeDataInitialized flag. -/
structure P0Pool where
  items : List P0Item
  udata : Int → Option CodePointData
  udataDone : Bool

/-- The part_000 UnicodeBMPPool constructor: an externally supplied index
marks the pool initialized; with none supplied (and no module-level shared
instance) the pool owns a fresh empty index and is not yet initialized. -/
def p0New (ext : Option (Int → Option CodePointData)) : P0Pool :=
  match ext with
  | some u => ⟨[], u, true⟩
  | none => ⟨[], emptyCPMap, false⟩

/-- The item-building loop of part_000's UnicodeBMPPool.initialize. -/
def p0Seed (d : Int → Option CodePointData) (items : List P0Item) : List P0Item :=
  (List.range 65536).foldl
    (fun acc (id : Nat) =>
      match d (id : Int) with
      | none => acc
      | some cpd => acc ++ [⟨(id : Int), cpd.name, "", fromCharCode16 (id : Int), 1⟩]) items

/-- UnicodeBMPPool.initialize of src/unnamed/part_000: load the index with
addUnicodeData(0, 65535) unless the flag says it is already populated, set
the flag, then seed the items. -/
def p0Run (content : String) (p : P0Pool) : P0Pool :=
  let d := if p.udataDone then p.udata else (addUnicodeData p.udata content 0 65535).data
  ⟨p0Seed d p.items, d, true⟩

/-! Spec-side comparison definitions.  These follow the specification's
words (spec.md §4.2 and §8) and exist only to be compared with the
definitions above, which are translated from the source. -/

/-- The spec's initial-consonant table (19 entries, spec §4.2). -/
def specInitials : List String :=
  ["g", "gg", "n", "d", "dd", "r", "m", "b", "bb", "s", "ss", "", "j", "jj", "ch", "k", "t", "p", "h"]

/-- The spec's vowel table (21 entries, spec §4.2). -/
def specVowels : List String :=
  ["a", "ae", "ya", "yae", "eo", "e", "yeo", "ye", "o", "wa", "wae", "oe", "yo", "u", "weo", "we", "wi", "yu", "eu", "ui", "i"]

/-- The spec's final-consonant table (28 entries, first empty, spec §4.2). -/
def specFinals : List String :=
  ["", "g", "gg", "gs", "n", "nj", "nh", "d", "l", "lg", "lm", "lb", "ls", "lt", "lp", "lh", "m", "b", "bs", "s", "ss", "ng", "j", "ch", "k", "t", "p", "h"]

/-- The spec's Hangul decomposition, stated with natural-number integer
division and remainder exactly as spec §4.2 words it. -/
def specHangulName (id : Int) : String :=
  let order := (id - 0xAC00).toNat
  specInitials.getD (order / 588) "" ++ specVowels.getD (order % 588 / 28) ""
    ++ specFinals.getD (order % 28) ""

/-- The spec's simple polynomial string hash (spec §4.2: for each character,
hash = hash * 31 + charCode, no 32-bit truncation). -/
def specSimpleHash (s : String) : Int :=
  s.data.foldl (fun h c => h * 31 + (c.toNat : Int)) 0

/-- The block color as the spec words it: the simple polynomial hash,
floor-mod 0xFFFFFF, rendered as six zero-padded hex digits after #. -/
def specSimpleColor (nm : String) : String :=
  "#" ++ padStart6 (natToHex ((jsMod (specSimpleHash nm) 0xFFFFFF).toNat))

/-! Helper lemmas. -/

/-- tableGet at an in-range natural index is the total table lookup. -/
theorem tableGet_ofNat (l : List String) (i : Nat) (h : i < l.length) :
    tableGet l ((i : Nat) : Int) = l.getD i "" := by
  induction l generalizing i with
  | nil => simp at h
  | cons a t ih =>
    cases i with
    | zero => simp [tableGet, optStr]
    | succ j =>
      have hj : j < t.length := by simpa using h
      have := ih j hj
      simpa [tableGet, optStr, List.getD] using this

/-- C2.  Hangul syllable naming: on the whole Hangul Syllables range the
source's getHangulSyllableName agrees with the spec's table-driven
decomposition, and the two endpoint examples evaluate to "ga" and "hih". -/
theorem hangul_name_matches_spec :
    (∀ id : Int, 0xAC00 ≤ id → id ≤ 0xD7A3 → getHangulSyllableName id = specHangulName id)
      ∧ getHangulSyllableName 0xAC00 = "ga" ∧ getHangulSyllableName 0xD7A3 = "hih" := by
  refine ⟨?_, by decide, by decide⟩
  intro id h1 h2
  obtain ⟨n, hn⟩ : ∃ n : Nat, id - 0xAC00 = (n : Int) :=
    ⟨(id - 0xAC00).toNat, by omega⟩
  have hnn : n ≤ 11171 := by omega
  have hord : (id - 0xAC00).toNat = n := by omega
  have e1 : ((n : Int)).fdiv 588 = ((n / 588 : Nat) : Int) := by
    rw [Int.fdiv_eq_ediv _ (by norm_num)]
    omega
  have e2 : ((n : Int)).tmod 588 = ((n % 588 : Nat) : Int) := by
    rw [Int.tmod_eq_emod (by positivity) (by norm_num)]
    omega
  have e3 : (((n % 588 : Nat) : Int)).fdiv 28 = ((n % 588 / 28 : Nat) : Int) := by
    rw [Int.fdiv_eq_ediv _ (by norm_num)]
    omega
  have e4 : ((n : Int)).tmod 28 = ((n % 28 : Nat) : Int) := by
    rw [Int.tmod_eq_emod (by positivity) (by norm_num)]
    omega
  simp only [getHangulSyllableName, specHangulName]
  rw [hn, Int.toNat_natCast, e1, e2, e3, e4]
  rw [tableGet_ofNat _ _ (by have : hangulInitials.length = 19 := rfl; omega)]
  rw [tableGet_ofNat _ _ (by have : hangulVowels.length = 21 := rfl; omega)]
  rw [tableGet_ofNat _ _ (by have : hangulFinals.length = 28 := rfl; omega)]
  rfl

/-- Witness for C2 at the first Hangul syllable. -/
theorem hangul_name_matches_spec_witness :
    getHangulSyllableName 0xAC00 = specHangulName 0xAC00 :=
  hangul_name_matches_spec.1 0xAC00 (by decide) (by decide)

/-- C5.  Pool.draw returns the empty list for a non-positive amount and for
an empty pool; being a total function of the embedding, it raises nothing. -/
theorem draw_nonpositive_or_empty :
    ∀ (items : List PoolItem) (amount : Int) (rand : Nat → ℚ),
      (amount ≤ 0 → draw items amount rand = [])
        ∧ (items = [] → draw items amount rand = []) := by
  intro items amount rand
  constructor
  · intro h
    simp [draw, h]
  · intro h
    subst h
    simp [draw]

/-- Witness for C5: a zero-amount draw on a non-empty pool and any draw on
the empty pool. -/
theorem draw_nonpositive_or_empty_witness :
    draw [⟨1, 1⟩] 0 (fun _ => 0) = [] ∧ draw [] 5 (fun _ => 0) = [] :=
  ⟨(draw_nonpositive_or_empty [⟨1, 1⟩] 0 (fun _ => 0)).1 (by decide),
   (draw_nonpositive_or_empty [] 5 (fun _ => 0)).2 rfl⟩

/-! The weighted-draw analysis: index-level selection, prefix sums, and the
fold bookkeeping of Pool.draw. -/

/-- Index of the item the cumulative scan selects (a specification-side
mirror of selectOne that returns the position instead of the item). -/
def selectIdx : List PoolItem → ℚ → Option Nat
  | [], _ => none
  | it :: rest, v =>
    if v < it.weight then some 0 else (selectIdx rest (v - it.weight)).map (fun j => j + 1)

/-- Cumulative weight of the items before position i. -/
def cumBefore (items : List PoolItem) (i : Nat) : ℚ :=
  ((items.take i).map PoolItem.weight).sum

/-- The reduce in Pool.draw computes the sum of the weights. -/
theorem totalWeight_eq_sum (items : List PoolItem) :
    totalWeight items = (items.map PoolItem.weight).sum := by
  suffices h : ∀ (l : List PoolItem) (s : ℚ),
      l.foldl (fun a it => a + it.weight) s = s + (l.map PoolItem.weight).sum by
    simpa [totalWeight] using h items 0
  intro l
  induction l with
  | nil => simp
  | cons a t ih =>
    intro s
    simp [ih, add_assoc]

/-- selectOne returns exactly the item sitting at the selected index. -/
theorem selectOne_eq_selectIdx (items : List PoolItem) (v : ℚ) :
    selectOne items v = (selectIdx items v).bind (fun i => items.get? i) := by
  induction items generalizing v with
  | nil => rfl
  | cons a t ih =>
    by_cases h : v < a.weight
    · simp [selectOne, selectIdx, h]
    · simp only [selectOne, selectIdx, if_neg h, ih]
      cases selectIdx t (v - a.weight) <;> simp

/-- A selected item is one of the pool's items. -/
theorem selectOne_mem (items : List PoolItem) (v : ℚ) (it : PoolItem)
    (h : selectOne items v = some it) : it ∈ items := by
  induction items generalizing v with
  | nil => simp [selectOne] at h
  | cons a t ih =>
    by_cases hw : v < a.weight
    · simp [selectOne, hw] at h
      simp [h]
    · simp only [selectOne, if_neg hw] at h
      exact List.mem_cons_of_mem a (ih (v - a.weight) h)

/-- The scan always selects when the random value is within the total. -/
theorem selectIdx_isSome (items : List PoolItem) (v : ℚ) (hv : 0 ≤ v)
    (hlt : v < (items.map PoolItem.weight).sum) : (selectIdx items v).isSome := by
  induction items generalizing v with
  | nil =>
    simp at hlt
    linarith
  | cons a t ih =>
    by_cases h : v < a.weight
    · simp [selectIdx, h]
    · have hw : a.weight ≤ v := le_of_not_lt h
      have h1 : 0 ≤ v - a.weight := by linarith
      have h2 : v - a.weight < (t.map PoolItem.weight).sum := by
        simp at hlt
        linarith
      have := ih (v - a.weight) h1 h2
      simp only [selectIdx, if_neg h]
      simpa using this

/-- Prefix sums of non-negative weights are non-negative. -/
theorem cumBefore_nonneg (items : List PoolItem) (i : Nat)
    (hnn : ∀ it ∈ items, 0 ≤ it.weight) : 0 ≤ cumBefore items i := by
  apply List.sum_nonneg
  intro x hx
  simp only [List.mem_map] at hx
  obtain ⟨it, hit, rfl⟩ := hx
  exact hnn it (List.mem_of_mem_take hit)

/-- Nothing lies before position 0. -/
theorem cumBefore_zero (items : List PoolItem) : cumBefore items 0 = 0 := by
  simp [cumBefore]

/-- Peeling the head off a prefix sum. -/
theorem cumBefore_succ_cons (a : PoolItem) (t : List PoolItem) (j : Nat) :
    cumBefore (a :: t) (j + 1) = a.weight + cumBefore t j := by
  simp [cumBefore]

/-- The scan selects index i exactly when the random value falls in the
half-open interval from the cumulative weight before i, of length the
weight of item i (all weights non-negative). -/
theorem selectIdx_spec (items : List PoolItem) (v : ℚ) (i : Nat)
    (hnn : ∀ it ∈ items, 0 ≤ it.weight) (hv : 0 ≤ v) :
    selectIdx items v = some i ↔
      ∃ it, items.get? i = some it ∧ cumBefore items i ≤ v ∧ v < cumBefore items i + it.weight := by
  induction items generalizing v i with
  | nil => simp [selectIdx]
  | cons a t ih =>
    have hnt : ∀ it ∈ t, 0 ≤ it.weight := fun it h => hnn it (List.mem_cons_of_mem a h)
    by_cases h : v < a.weight
    · cases i with
      | zero =>
        simp [selectIdx, h, cumBefore_zero, hv]
      | succ j =>
        have hc : 0 ≤ cumBefore t j := cumBefore_nonneg t j hnt
        rw [cumBefore_succ_cons]
        simp only [selectIdx, if_pos h, List.get?_cons_succ]
        constructor
        · intro hfalse
          simp at hfalse
        · rintro ⟨it, hit, hle, hlt⟩
          exfalso
          linarith
    · have hw : a.weight ≤ v := le_of_not_lt h
      cases i with
      | zero =>
        rw [cumBefore_zero]
        simp only [selectIdx, if_neg h, List.get?_cons_zero]
        constructor
        · intro hmap
          simp at hmap
        · rintro ⟨it, hit, hle, hlt⟩
          exfalso
          have : it = a := by simpa using hit.symm
          subst this
          linarith
      | succ j =>
        have h1 : 0 ≤ v - a.weight := by linarith
        have hIH := ih (v - a.weight) j hnt h1
        rw [cumBefore_succ_cons]
        simp only [selectIdx, if_neg h, List.get?_cons_succ]
        constructor
        · intro hmap
          have hsel : selectIdx t (v - a.weight) = some j := by
            cases hsel2 : selectIdx t (v - a.weight) with
            | none =>
              rw [hsel2] at hmap
              simp at hmap
            | some k =>
              rw [hsel2] at hmap
              simp at hmap
              rw [hmap]
          obtain ⟨it, hit, hle, hlt⟩ := hIH.mp hsel
          exact ⟨it, hit, by linarith, by linarith⟩
        · rintro ⟨it, hit, hle, hlt⟩
          have hsel : selectIdx t (v - a.weight) = some j :=
            hIH.mpr ⟨it, hit, by linarith, by linarith⟩
          simp [hsel]

/-- A selection whose random value lies in [0, totalWeight) always
succeeds. -/
theorem selectOne_isSome_of_lt (items : List PoolItem) (v : ℚ)
    (hnn : ∀ it ∈ items, 0 ≤ it.weight) (hv : 0 ≤ v) (hlt : v < totalWeight items) :
    (selectOne items v).isSome := by
  have h1 : (selectIdx items v).isSome := by
    apply selectIdx_isSome items v hv
    rw [← totalWeight_eq_sum]
    exact hlt
  obtain ⟨i, hi⟩ := Option.isSome_iff_exists.mp h1
  obtain ⟨it, hit, h2, h3⟩ := (selectIdx_spec items v i hnn hv).mp hi
  rw [selectOne_eq_selectIdx, hi]
  rw [List.get?_eq_getElem?] at hit
  simp [hit]

/-- Length bookkeeping of the draw loop when every selection succeeds. -/
theorem drawFold_length (items : List PoolItem) (rand : Nat → ℚ) :
    ∀ (n : Nat) (res : List PoolItem),
      (∀ i, i < n → (selectOne items (rand i)).isSome) →
      ((List.range n).foldl
        (fun res i =>
          match selectOne items (rand i) with
          | some it => res ++ [it]
          | none => res) res).length = res.length + n := by
  intro n
  induction n with
  | zero =>
    intro res h
    simp
  | succ m ih =>
    intro res h
    rw [List.range_succ, List.foldl_append]
    simp only [List.foldl_cons, List.foldl_nil]
    cases hs : selectOne items (rand m) with
    | none =>
      exfalso
      have := h m (by omega)
      rw [hs] at this
      simp at this
    | some it =>
      rw [List.length_append, ih res (fun i hi => h i (by omega))]
      simp
      omega

/-- Everything the draw loop accumulates is either old or a selection. -/
theorem drawFold_mem (items : List PoolItem) (rand : Nat → ℚ) :
    ∀ (n : Nat) (res : List PoolItem) (x : PoolItem),
      x ∈ (List.range n).foldl
        (fun res i =>
          match selectOne items (rand i) with
          | some it => res ++ [it]
          | none => res) res →
      x ∈ res ∨ ∃ i, i < n ∧ selectOne items (rand i) = some x := by
  intro n
  induction n with
  | zero =>
    intro res x hx
    simp at hx
    exact Or.inl hx
  | succ m ih =>
    intro res x hx
    rw [List.range_succ, List.foldl_append] at hx
    simp only [List.foldl_cons, List.foldl_nil] at hx
    cases hs : selectOne items (rand m) with
    | none =>
      rw [hs] at hx
      rcases ih res x hx with h | ⟨i, hi, hsel⟩
      · exact Or.inl h
      · exact Or.inr ⟨i, by omega, hsel⟩
    | some it =>
      rw [hs] at hx
      rcases List.mem_append.mp hx with h | h
      · rcases ih res x h with h2 | ⟨i, hi, hsel⟩
        · exact Or.inl h2
        · exact Or.inr ⟨i, by omega, hsel⟩
      · have : x = it := by simpa using h
        subst this
        exact Or.inr ⟨m, by omega, hs⟩

/-- C3.  Weighted draw correctness: on a non-empty pool with non-negative
weights, a positive amount and random values in [0, totalWeight), draw
returns exactly amount items, each from the pool; a single scan returns the
item at the selected index, and the index selected by a value v is exactly
the one whose cumulative-weight interval [cumBefore i, cumBefore i +
weight i) contains v — an interval of length the item's weight. -/
theorem draw_weighted_correct :
    ∀ (items : List PoolItem) (amount : Int) (rand : Nat → ℚ),
      items ≠ [] → 0 < amount →
      (∀ i, i < amount.toNat → 0 ≤ rand i ∧ rand i < totalWeight items) →
      (∀ it ∈ items, 0 ≤ it.weight) →
      (draw items amount rand).length = amount.toNat
        ∧ (∀ it ∈ draw items amount rand, it ∈ items)
        ∧ (∀ v : ℚ, selectOne items v = (selectIdx items v).bind (fun i => items.get? i))
        ∧ (∀ v : ℚ, 0 ≤ v → ∀ i : Nat,
            (selectIdx items v = some i ↔
              ∃ it, items.get? i = some it ∧
                cumBefore items i ≤ v ∧ v < cumBefore items i + it.weight)) := by
  intro items amount rand hne hpos hr hnn
  have hcond : ¬(items.length = 0 ∨ amount ≤ 0) := by
    push_neg
    constructor
    · simpa using hne
    · omega
  refine ⟨?_, ?_, fun v => selectOne_eq_selectIdx items v,
    fun v hv i => selectIdx_spec items v i hnn hv⟩
  · rw [draw, if_neg hcond]
    rw [drawFold_length items rand amount.toNat []
      (fun i hi => selectOne_isSome_of_lt items (rand i) hnn (hr i hi).1 (hr i hi).2)]
    simp
  · intro it hit
    rw [draw, if_neg hcond] at hit
    rcases drawFold_mem items rand amount.toNat [] it hit with h | ⟨i, hi, hsel⟩
    · simp at h
    · exact selectOne_mem items (rand i) it hsel

/-- Witness for C3 on the two-item pool of spec §8 with two draws. -/
theorem draw_weighted_correct_witness :
    (draw [⟨1, 1⟩, ⟨2, 3⟩] 2 (fun i => if i = 0 then 1 / 2 else 3)).length = 2 :=
  (draw_weighted_correct [⟨1, 1⟩, ⟨2, 3⟩] 2 (fun i => if i = 0 then 1 / 2 else 3)
    (List.cons_ne_nil _ _)
    (by norm_num)
    (by
      have ht : totalWeight [⟨1, 1⟩, ⟨2, 3⟩] = 4 := by
        norm_num [totalWeight]
      intro i hi
      rw [ht]
      have hi2 : i < 2 := by omega
      interval_cases i <;> norm_num)
    (by
      intro it hit
      rcases List.mem_cons.mp hit with h | h
      · rw [h]
        norm_num
      · have : it = ⟨2, 3⟩ := by simpa using h
        rw [this]
        norm_num)).1

/-- A successful selection never lands on a zero-weight item: the running
value stays non-negative across skips, and selection needs value < weight. -/
theorem selectOne_posWeight (items : List PoolItem) (v : ℚ)
    (hnn : ∀ it ∈ items, 0 ≤ it.weight) (hv : 0 ≤ v) (it : PoolItem)
    (h : selectOne items v = some it) : 0 < it.weight := by
  induction items generalizing v with
  | nil => simp [selectOne] at h
  | cons a t ih =>
    by_cases hw : v < a.weight
    · have : a = it := by simpa [selectOne, hw] using h
      subst this
      linarith
    · simp only [selectOne, if_neg hw] at h
      have hw2 : a.weight ≤ v := le_of_not_lt hw
      exact ih (v - a.weight) (fun x hx => hnn x (List.mem_cons_of_mem a hx)) (by linarith) h

/-- C10.  With non-negative weights and random values in [0, totalWeight),
no item returned by draw has weight 0. -/
theorem draw_never_zero_weight :
    ∀ (items : List PoolItem) (amount : Int) (rand : Nat → ℚ),
      (∀ it ∈ items, 0 ≤ it.weight) →
      (∀ i, i < amount.toNat → 0 ≤ rand i ∧ rand i < totalWeight items) →
      ∀ it ∈ draw items amount rand, it.weight ≠ 0 := by
  intro items amount rand hnn hr it hit
  by_cases hcond : items.length = 0 ∨ amount ≤ 0
  · rw [draw, if_pos hcond] at hit
    simp at hit
  · rw [draw, if_neg hcond] at hit
    rcases drawFold_mem items rand amount.toNat [] it hit with h | ⟨i, hi, hsel⟩
    · simp at h
    · have := selectOne_posWeight items (rand i) hnn (hr i hi).1 it hsel
      linarith

/-- Witness for C10: a pool containing a zero-weight item; every drawn item
has non-zero weight. -/
theorem draw_never_zero_weight_witness :
    (draw [⟨1, 0⟩, ⟨2, 3⟩] 1 (fun _ => 1)).all (fun it => it.weight != 0) = true := by
  rw [List.all_eq_true]
  intro it hit
  have h := draw_never_zero_weight [⟨1, 0⟩, ⟨2, 3⟩] 1 (fun _ => 1)
    (by
      intro x hx
      rcases List.mem_cons.mp hx with h | h
      · rw [h]
      · have : x = ⟨2, 3⟩ := by simpa using h
        rw [this]
        norm_num)
    (by
      have ht : totalWeight [⟨1, 0⟩, ⟨2, 3⟩] = 3 := by
        norm_num [totalWeight]
      intro i hi
      rw [ht]
      norm_num)
    it hit
  simpa using h

/-! Loader analysis: what addRange and one loader step do to the map. -/

/-- Pointwise effect of the addRange store loop. -/
theorem rangeStore_apply (g : Int → CodePointData) :
    ∀ (n : Nat) (f : Int) (d : Int → Option CodePointData) (j : Int),
      ((List.range n).foldl
        (fun d (k : Nat) => fun j => if j = f + (k : Int) then some (g (f + (k : Int))) else d j) d) j
        = if f ≤ j ∧ j < f + (n : Int) then some (g j) else d j := by
  intro n
  induction n with
  | zero =>
    intro f d j
    simp only [List.range_zero, List.foldl_nil]
    rw [if_neg (by push_cast; omega)]
  | succ m ih =>
    intro f d j
    rw [List.range_succ, List.foldl_append]
    simp only [List.foldl_cons, List.foldl_nil]
    by_cases hj : j = f + (m : Int)
    · rw [if_pos hj, if_pos (by push_cast; omega), hj]
    · rw [if_neg hj, ih f d j]
      by_cases hc : f ≤ j ∧ j < f + (m : Int)
      · rw [if_pos hc, if_pos (by push_cast at hc ⊢; omega)]
      · rw [if_neg hc, if_neg (by push_cast at hc hj ⊢; omega)]

/-- UnicodeData.addRange stores the synthesized record exactly on
[rangeFirst, rangeLast] and leaves every other key unchanged. -/
theorem addRange_apply (f l : Int) (nm : String) (cpd : CodePointData)
    (d : Int → Option CodePointData) (j : Int) :
    addRange f l nm cpd d j
      = if f ≤ j ∧ j ≤ l then some (rangeRecord nm cpd j) else d j := by
  unfold addRange
  rw [rangeStore_apply (rangeRecord nm cpd) ((l + 1 - f).toNat) f d j]
  by_cases hc : f ≤ j ∧ j ≤ l
  · rw [if_pos hc, if_pos (by constructor; exact hc.1; omega)]
  · rw [if_neg hc, if_neg (by omega)]

/-- Exhaustive description of one loader step: it leaves the state alone,
crashes on a missing name, records a pending range start, expands a range,
or stores the parsed record at its id. -/
theorem loaderStep_cases (rs re : Int) (st : LoadState) (line : String) :
    loaderStep rs re st line = st
      ∨ (∃ id, (parseCodePoint line).id = some id ∧ ¬(id < rs ∨ id > re) ∧
          loaderStep rs re st line = { st with crashed := true })
      ∨ (∃ id, (parseCodePoint line).id = some id ∧ ¬(id < rs ∨ id > re) ∧
          loaderStep rs re st line = { st with rangeFirst := id })
      ∨ (∃ id nm, (parseCodePoint line).id = some id ∧ ¬(id < rs ∨ id > re) ∧
          (parseCodePoint line).name = some nm ∧
          loaderStep rs re st line
            = { st with data :=
                addRange st.rangeFirst id (strDropRight (strDrop nm 1) 7) (parseCodePoint line) st.data })
      ∨ (∃ id, (parseCodePoint line).id = some id ∧ ¬(id < rs ∨ id > re) ∧
          loaderStep rs re st line
            = { st with data := fun j => if j = id then some (parseCodePoint line) else st.data j }) := by
  by_cases hcr : st.crashed = true
  · exact Or.inl (by simp [loaderStep, hcr])
  rw [Bool.not_eq_true] at hcr
  by_cases hh : jsStartsWith line "#" = true
  · exact Or.inl (by simp [loaderStep, hcr, hh])
  rw [Bool.not_eq_true] at hh
  cases hid : (parseCodePoint line).id with
  | none => exact Or.inl (by simp [loaderStep, hcr, hh, hid])
  | some id =>
    by_cases hb : id < rs ∨ id > re
    · exact Or.inl (by simp [loaderStep, hcr, hh, hid, hb])
    cases hnm : (parseCodePoint line).name with
    | none =>
      exact Or.inr (Or.inl ⟨id, rfl, hb, by simp [loaderStep, hcr, hh, hid, hb, hnm]⟩)
    | some nm =>
      by_cases hgt : jsEndsWith nm ">" = true
      · by_cases hf : jsEndsWith nm "First>" = true
        · exact Or.inr (Or.inr (Or.inl ⟨id, rfl, hb,
            by simp [loaderStep, hcr, hh, hid, hb, hnm, hgt, hf]⟩))
        rw [Bool.not_eq_true] at hf
        by_cases hl : jsEndsWith nm "Last>" = true
        · by_cases htag : (jsIncludes (strDropRight (strDrop nm 1) 7) "CJK"
              || jsIncludes (strDropRight (strDrop nm 1) 7) "Hangul") = true
          · exact Or.inr (Or.inr (Or.inr (Or.inl ⟨id, nm, rfl, hb, rfl,
              by simp [loaderStep, hcr, hh, hid, hb, hnm, hgt, hf, hl, htag]⟩)))
          · rw [Bool.not_eq_true] at htag
            exact Or.inl (by simp [loaderStep, hcr, hh, hid, hb, hnm, hgt, hf, hl, htag])
        · rw [Bool.not_eq_true] at hl
          exact Or.inl (by simp [loaderStep, hcr, hh, hid, hb, hnm, hgt, hf, hl])
      · rw [Bool.not_eq_true] at hgt
        exact Or.inr (Or.inr (Or.inr (Or.inr ⟨id, rfl, hb,
          by simp [loaderStep, hcr, hh, hid, hb, hnm, hgt]⟩)))

/-- A First> record (inside the scan bound, on a live state) only sets the
pending range start; the map is untouched, so the record is not stored. -/
theorem loaderStep_first (rs re : Int) (st : LoadState) (line : String) (id : Int) (nm : String)
    (hcr : st.crashed = false)
    (hh : jsStartsWith line "#" = false)
    (hid : (parseCodePoint line).id = some id)
    (hb : ¬(id < rs ∨ id > re))
    (hnm : (parseCodePoint line).name = some nm)
    (hgt : jsEndsWith nm ">" = true)
    (hf : jsEndsWith nm "First>" = true) :
    loaderStep rs re st line = { st with rangeFirst := id } := by
  simp [loaderStep, hcr, hh, hid, hb, hnm, hgt, hf]

/-- A Last> record whose stripped tag mentions CJK or Hangul expands the
pending range into the map. -/
theorem loaderStep_last (rs re : Int) (st : LoadState) (line : String) (id : Int) (nm : String)
    (hcr : st.crashed = false)
    (hh : jsStartsWith line "#" = false)
    (hid : (parseCodePoint line).id = some id)
    (hb : ¬(id < rs ∨ id > re))
    (hnm : (parseCodePoint line).name = some nm)
    (hgt : jsEndsWith nm ">" = true)
    (hf : jsEndsWith nm "First>" = false)
    (hl : jsEndsWith nm "Last>" = true)
    (htag : (jsIncludes (strDropRight (strDrop nm 1) 7) "CJK"
        || jsIncludes (strDropRight (strDrop nm 1) 7) "Hangul") = true) :
    loaderStep rs re st line
      = { st with data :=
          addRange st.rangeFirst id (strDropRight (strDrop nm 1) 7) (parseCodePoint line) st.data } := by
  simp [loaderStep, hcr, hh, hid, hb, hnm, hgt, hf, hl, htag]

/-- A record whose name is bracketed but closes no CJK/Hangul range — a
First> marker aside — is dropped whole: a Last> record with any other tag,
or any other name ending in >, leaves the state untouched. -/
theorem loaderStep_drop_bracketed (rs re : Int) (st : LoadState) (line : String) (id : Int)
    (nm : String)
    (hcr : st.crashed = false)
    (hh : jsStartsWith line "#" = false)
    (hid : (parseCodePoint line).id = some id)
    (hb : ¬(id < rs ∨ id > re))
    (hnm : (parseCodePoint line).name = some nm)
    (hgt : jsEndsWith nm ">" = true)
    (hf : jsEndsWith nm "First>" = false)
    (hrest : jsEndsWith nm "Last>" = false
      ∨ (jsIncludes (strDropRight (strDrop nm 1) 7) "CJK" = false
          ∧ jsIncludes (strDropRight (strDrop nm 1) 7) "Hangul" = false)) :
    loaderStep rs re st line = st := by
  rcases hrest with hl | ⟨ht1, ht2⟩
  · simp [loaderStep, hcr, hh, hid, hb, hnm, hgt, hf, hl]
  · by_cases hl : jsEndsWith nm "Last>" = true
    · simp [loaderStep, hcr, hh, hid, hb, hnm, hgt, hf, hl, ht1, ht2]
    · rw [Bool.not_eq_true] at hl
      simp [loaderStep, hcr, hh, hid, hb, hnm, hgt, hf, hl]

/-- An unbracketed record inside the bound is stored at its id. -/
theorem loaderStep_store (rs re : Int) (st : LoadState) (line : String) (id : Int) (nm : String)
    (hcr : st.crashed = false)
    (hh : jsStartsWith line "#" = false)
    (hid : (parseCodePoint line).id = some id)
    (hb : ¬(id < rs ∨ id > re))
    (hnm : (parseCodePoint line).name = some nm)
    (hgt : jsEndsWith nm ">" = false) :
    loaderStep rs re st line
      = { st with data := fun j => if j = id then some (parseCodePoint line) else st.data j } := by
  simp [loaderStep, hcr, hh, hid, hb, hnm, hgt]

/-- One loader step keeps every stored id within [min rangeStart 0,
rangeEnd] and the pending range start at least min rangeStart 0. -/
theorem loaderStep_bounds (rs re : Int) (st : LoadState) (line : String)
    (hd : ∀ j, ((st.data j).isSome) → min rs 0 ≤ j ∧ j ≤ re)
    (hrf : min rs 0 ≤ st.rangeFirst) :
    (∀ j, (((loaderStep rs re st line).data j).isSome) → min rs 0 ≤ j ∧ j ≤ re)
      ∧ min rs 0 ≤ (loaderStep rs re st line).rangeFirst := by
  rcases loaderStep_cases rs re st line with h | ⟨id, hid, hb, h⟩ | ⟨id, hid, hb, h⟩
    | ⟨id, nm, hid, hb, hnm, h⟩ | ⟨id, hid, hb, h⟩ <;> rw [h]
  · exact ⟨hd, hrf⟩
  · exact ⟨hd, hrf⟩
  · refine ⟨hd, ?_⟩
    dsimp only
    push_neg at hb
    omega
  · refine ⟨?_, hrf⟩
    intro j hj
    dsimp only at hj
    rw [addRange_apply] at hj
    by_cases hc : st.rangeFirst ≤ j ∧ j ≤ id
    · push_neg at hb
      omega
    · rw [if_neg hc] at hj
      exact hd j hj
  · refine ⟨?_, hrf⟩
    intro j hj
    dsimp only at hj
    by_cases hc : j = id
    · push_neg at hb
      omega
    · rw [if_neg hc] at hj
      exact hd j hj

/-- The whole loader run keeps every stored id within
[min rangeStart 0, rangeEnd]. -/
theorem loaderFold_bounds (rs re : Int) :
    ∀ (lines : List String) (st : LoadState),
      (∀ j, ((st.data j).isSome) → min rs 0 ≤ j ∧ j ≤ re) →
      min rs 0 ≤ st.rangeFirst →
      ∀ j, (((lines.foldl (loaderStep rs re) st).data j).isSome) → min rs 0 ≤ j ∧ j ≤ re := by
  intro lines
  induction lines with
  | nil => intro st hd hrf; exact hd
  | cons l t ih =>
    intro st hd hrf
    have hstep := loaderStep_bounds rs re st l hd hrf
    exact ih (loaderStep rs re st l) hstep.1 hstep.2

/-- The two-line code-point file of the C1 scenario: a CJK Ideograph
First>/Last> pair at 0x4E00 and 0x4E02. -/
def cjkPairContent : String :=
  "4E00;<CJK Ideograph, First>;Lo;0;L;;;;;N;;;;;\n4E02;<CJK Ideograph, Last>;Lo;0;L;;;;;N;;;;;"

/-- C1.  Range expansion: a First> record only sets the pending range start
(nothing stored); a CJK/Hangul Last> record expands [pending, last] through
addRange; addRange stores the synthesized record exactly on that interval;
and on the concrete CJK pair at 0x4E00..0x4E02 the index holds exactly
those three ids with names "CJK IDEOGRAPH 4E00" .. "CJK IDEOGRAPH 4E02". -/
theorem range_expansion_correct :
    (∀ (rs re : Int) (st : LoadState) (line : String) (id : Int) (nm : String),
        st.crashed = false → jsStartsWith line "#" = false →
        (parseCodePoint line).id = some id → ¬(id < rs ∨ id > re) →
        (parseCodePoint line).name = some nm →
        jsEndsWith nm ">" = true → jsEndsWith nm "First>" = true →
        loaderStep rs re st line = { st with rangeFirst := id })
      ∧ (∀ (rs re : Int) (st : LoadState) (line : String) (id : Int) (nm : String),
          st.crashed = false → jsStartsWith line "#" = false →
          (parseCodePoint line).id = some id → ¬(id < rs ∨ id > re) →
          (parseCodePoint line).name = some nm →
          jsEndsWith nm ">" = true → jsEndsWith nm "First>" = false →
          jsEndsWith nm "Last>" = true →
          (jsIncludes (strDropRight (strDrop nm 1) 7) "CJK"
              || jsIncludes (strDropRight (strDrop nm 1) 7) "Hangul") = true →
          loaderStep rs re st line
            = { st with data :=
                addRange st.rangeFirst id (strDropRight (strDrop nm 1) 7) (parseCodePoint line) st.data })
      ∧ (∀ (f l : Int) (nm : String) (cpd : CodePointData) (d : Int → Option CodePointData) (j : Int),
          addRange f l nm cpd d j = if f ≤ j ∧ j ≤ l then some (rangeRecord nm cpd j) else d j)
      ∧ (∀ j : Int, (((addUnicodeData emptyCPMap cjkPairContent 0 65535).data j).isSome)
          ↔ (j = 0x4E00 ∨ j = 0x4E01 ∨ j = 0x4E02))
      ∧ ((addUnicodeData emptyCPMap cjkPairContent 0 65535).data 0x4E00).map CodePointData.name
          = some (some "CJK IDEOGRAPH 4E00")
      ∧ ((addUnicodeData emptyCPMap cjkPairContent 0 65535).data 0x4E01).map CodePointData.name
          = some (some "CJK IDEOGRAPH 4E01")
      ∧ ((addUnicodeData emptyCPMap cjkPairContent 0 65535).data 0x4E02).map CodePointData.name
          = some (some "CJK IDEOGRAPH 4E02") := by
  refine ⟨loaderStep_first, loaderStep_last, addRange_apply, ?_, by decide, by decide, by decide⟩
  intro j
  have hrun : addUnicodeData emptyCPMap cjkPairContent 0 65535
      = ⟨addRange 0x4E00 0x4E02 "CJK Ideograph"
          (parseCodePoint "4E02;<CJK Ideograph, Last>;Lo;0;L;;;;;N;;;;;") emptyCPMap,
        0x4E00, false⟩ := rfl
  rw [hrun]
  dsimp only
  rw [addRange_apply]
  by_cases hc : (0x4E00 : Int) ≤ j ∧ j ≤ 0x4E02
  · rw [if_pos hc]
    simp
    omega
  · rw [if_neg hc]
    simp [emptyCPMap]
    omega

/-- Witness for C1: the First> line sets the pending start on the initial
state, and id 0x4E01 is stored after the concrete run. -/
theorem range_expansion_correct_witness :
    loaderStep 0 65535 ⟨emptyCPMap, 0, false⟩ "4E00;<CJK Ideograph, First>;Lo;0;L;;;;;N;;;;;"
        = ⟨emptyCPMap, 0x4E00, false⟩
      ∧ (((addUnicodeData emptyCPMap cjkPairContent 0 65535).data 0x4E01).isSome) = true := by
  constructor
  · exact range_expansion_correct.1 0 65535 ⟨emptyCPMap, 0, false⟩
      "4E00;<CJK Ideograph, First>;Lo;0;L;;;;;N;;;;;" 0x4E00 "<CJK Ideograph, First>"
      rfl (by decide) (by decide) (by decide) (by decide) (by decide) (by decide)
  · exact (range_expansion_correct.2.2.2.1 0x4E01).mpr (Or.inr (Or.inl rfl))

/-- C6 (amended).  Every id the loader stores lies in
[min rangeStart 0, rangeEnd] — hence in [rangeStart, rangeEnd] whenever
rangeStart ≤ 0, as in the source's default call (0, 65535) — and a step
seeing a bracketed name that closes no CJK/Hangul range stores nothing.
The stated claim fails only when rangeStart > 0 and a CJK/Hangul Last>
record arrives with the pending start still at its initial 0. -/
theorem loader_bound_and_range_drop :
    (∀ (content : String) (rs re j : Int),
        (((addUnicodeData emptyCPMap content rs re).data j).isSome) → min rs 0 ≤ j ∧ j ≤ re)
      ∧ (∀ (content : String) (j : Int),
          (((addUnicodeData emptyCPMap content 0 65535).data j).isSome) → 0 ≤ j ∧ j ≤ 65535)
      ∧ (∀ (rs re : Int) (st : LoadState) (line : String) (id : Int) (nm : String),
          st.crashed = false → jsStartsWith line "#" = false →
          (parseCodePoint line).id = some id → ¬(id < rs ∨ id > re) →
          (parseCodePoint line).name = some nm →
          jsEndsWith nm ">" = true → jsEndsWith nm "First>" = false →
          (jsEndsWith nm "Last>" = false
            ∨ (jsIncludes (strDropRight (strDrop nm 1) 7) "CJK" = false
                ∧ jsIncludes (strDropRight (strDrop nm 1) 7) "Hangul" = false)) →
          loaderStep rs re st line = st) := by
  have hbase : ∀ (rs re : Int) (content : String) (j : Int),
      (((addUnicodeData emptyCPMap content rs re).data j).isSome) → min rs 0 ≤ j ∧ j ≤ re := by
    intro rs re content j
    exact loaderFold_bounds rs re (jsSplit content "\n") ⟨emptyCPMap, 0, false⟩
      (by intro j hj; simp [emptyCPMap] at hj) (min_le_right rs 0) j
  refine ⟨fun content rs re j => hbase rs re content j, ?_, loaderStep_drop_bracketed⟩
  intro content j hj
  have h := hbase 0 65535 content j hj
  simpa using h

/-- Counterexample to C6 as stated: with bounds [16, 64] a lone
"<Fake CJK, Last>" record at 0x20 expands from the initial pending start 0
and stores id 0, which is below rangeStart = 16. -/
theorem loader_scan_bound_counterexample :
    (((addUnicodeData emptyCPMap "20;<Fake CJK, Last>;Lo;0;L;;;;;N;;;;;" 16 64).data 0).isSome)
        = true
      ∧ ¬((16 : Int) ≤ 0) := by
  constructor
  · decide
  · decide

/-- Witness for C6: the amended bound applied to a store at id 0x41 inside
the default bounds. -/
theorem loader_bound_and_range_drop_witness :
    (0 : Int) ≤ 0x41 ∧ (0x41 : Int) ≤ 65535 :=
  loader_bound_and_range_drop.2.1 "41;LATIN CAPITAL LETTER A;Lu;0;L;;;;;N;;;;;" 0x41 (by decide)

/-! BMP pool seeding analysis. -/

/-- The items one seeding pass produces: one weight-1 item per id in
[0, 65535] present in the index, in increasing id order. -/
def bmpSeedList (u : UnicodeData) : List PoolItem :=
  (List.range 65536).filterMap
    (fun (id : Nat) => (getCodePoint u (id : Int)).map (fun _ => ⟨(id : Int), 1⟩))

/-- The seeding loop of the lib UnicodeBMPPool is one append of the seed
list. -/
theorem buildBMPItems_eq (u : UnicodeData) (items : List PoolItem) :
    buildBMPItems u items = items ++ bmpSeedList u := by
  suffices h : ∀ (n : Nat) (init : List PoolItem),
      (List.range n).foldl
        (fun acc (id : Nat) =>
          match getCodePoint u (id : Int) with
          | none => acc
          | some _ => acc ++ [⟨(id : Int), 1⟩]) init
      = init ++ (List.range n).filterMap
          (fun (id : Nat) => (getCodePoint u (id : Int)).map (fun _ => ⟨(id : Int), 1⟩)) by
    exact h 65536 items
  intro n
  induction n with
  | zero => intro init; simp
  | succ m ih =>
    intro init
    rw [List.range_succ, List.foldl_append, List.filterMap_append, ih]
    simp only [List.foldl_cons, List.foldl_nil, List.filterMap_cons, List.filterMap_nil]
    cases h : getCodePoint u (m : Int) with
    | none => simp
    | some c => simp

/-- Seed-list membership: exactly the present ids of [0, 65535], each with
weight 1. -/
theorem bmpSeedList_mem (u : UnicodeData) (it : PoolItem) :
    it ∈ bmpSeedList u
      ↔ ∃ m : Nat, m < 65536 ∧ (getCodePoint u (m : Int)).isSome ∧ it = ⟨(m : Int), 1⟩ := by
  unfold bmpSeedList
  rw [List.mem_filterMap]
  constructor
  · rintro ⟨a, ha, hfa⟩
    rw [List.mem_range] at ha
    rcases hopt : getCodePoint u (a : Int) with _ | c
    · rw [hopt] at hfa
      simp at hfa
    · rw [hopt] at hfa
      simp at hfa
      exact ⟨a, ha, by rw [hopt]; rfl, hfa.symm⟩
  · rintro ⟨m, hm, hsome, rfl⟩
    refine ⟨m, List.mem_range.mpr hm, ?_⟩
    rcases hopt : getCodePoint u (m : Int) with _ | c
    · rw [hopt] at hsome
      simp at hsome
    · simp [hopt]

/-- Seed-list items appear in strictly increasing id order (so each present
id occurs exactly once). -/
theorem bmpSeedList_sorted (u : UnicodeData) :
    (bmpSeedList u).Pairwise (fun a b => a.id < b.id) := by
  unfold bmpSeedList
  rw [List.pairwise_filterMap]
  apply List.Pairwise.imp ?_ (List.pairwise_lt_range 65536)
  intro a b hab x hx y hy
  rcases ha : getCodePoint u (a : Int) with _ | ca
  · rw [ha] at hx
    simp at hx
  rcases hb : getCodePoint u (b : Int) with _ | cb
  · rw [hb] at hy
    simp at hy
  rw [ha] at hx
  rw [hb] at hy
  simp at hx hy
  rw [← hx, ← hy]
  simpa using hab

/-- The items the part_000 seeding pass produces. -/
def p0SeedList (d : Int → Option CodePointData) : List P0Item :=
  (List.range 65536).filterMap
    (fun (id : Nat) => (d (id : Int)).map
      (fun cpd => ⟨(id : Int), cpd.name, "", fromCharCode16 (id : Int), 1⟩))

/-- The part_000 seeding loop is one append of its seed list. -/
theorem p0Seed_eq (d : Int → Option CodePointData) (items : List P0Item) :
    p0Seed d items = items ++ p0SeedList d := by
  suffices h : ∀ (n : Nat) (init : List P0Item),
      (List.range n).foldl
        (fun acc (id : Nat) =>
          match d (id : Int) with
          | none => acc
          | some cpd => acc ++ [⟨(id : Int), cpd.name, "", fromCharCode16 (id : Int), 1⟩]) init
      = init ++ (List.range n).filterMap
          (fun (id : Nat) => (d (id : Int)).map
            (fun cpd => ⟨(id : Int), cpd.name, "", fromCharCode16 (id : Int), 1⟩)) by
    exact h 65536 items
  intro n
  induction n with
  | zero => intro init; simp
  | succ m ih =>
    intro init
    rw [List.range_succ, List.foldl_append, List.filterMap_append, ih]
    simp only [List.foldl_cons, List.foldl_nil, List.filterMap_cons, List.filterMap_nil]
    cases h : d (m : Int) with
    | none => simp
    | some c => simp

/-- Each part_000 seed item has weight 1 and a present id. -/
theorem p0SeedList_mem (d : Int → Option CodePointData) (it : P0Item)
    (h : it ∈ p0SeedList d) : it.weight = 1 ∧ (d it.id).isSome := by
  unfold p0SeedList at h
  rw [List.mem_filterMap] at h
  obtain ⟨a, ha, hfa⟩ := h
  rcases hopt : d (a : Int) with _ | c
  · rw [hopt] at hfa
    simp at hfa
  · rw [hopt] at hfa
    simp at hfa
    rw [← hfa]
    exact ⟨rfl, by simp [hopt]⟩

/-- The part_000 initialize always leaves the flag set. -/
theorem p0Run_udataDone (content : String) (p : P0Pool) : (p0Run content p).udataDone = true :=
  rfl

/-- The index the part_000 initialize ends with: untouched when the flag
was set, otherwise its own load of the content. -/
theorem p0Run_udata (content : String) (p : P0Pool) :
    (p0Run content p).udata
      = if p.udataDone then p.udata else (addUnicodeData p.udata content 0 65535).data :=
  rfl

/-- The items after the part_000 initialize: one seeding pass over the
index it ended with. -/
theorem p0Run_items (content : String) (p : P0Pool) :
    (p0Run content p).items
      = p0Seed (if p.udataDone then p.udata else (addUnicodeData p.udata content 0 65535).data)
          p.items := by
  dsimp only [p0Run]

/-- C7.  BMP pool seeding: the lib pool's initialize appends exactly one
weight-1 item per present id of [0, 65535] in increasing order; the
part_000 pool keeps an externally supplied index untouched, lazily loads
its own when none was supplied, never reloads once the flag is set
(idempotent index population), and seeds items of weight 1 for exactly the
present ids. -/
theorem bmp_pool_seeding :
    (∀ (u : UnicodeData) (items : List PoolItem), buildBMPItems u items = items ++ bmpSeedList u)
      ∧ (∀ (u : UnicodeData) (it : PoolItem),
          it ∈ bmpSeedList u
            ↔ ∃ m : Nat, m < 65536 ∧ (getCodePoint u (m : Int)).isSome ∧ it = ⟨(m : Int), 1⟩)
      ∧ (∀ u : UnicodeData, (bmpSeedList u).Pairwise (fun a b => a.id < b.id))
      ∧ (∀ (content : String) (u : Int → Option CodePointData),
          (p0Run content (p0New (some u))).udata = u)
      ∧ (∀ content : String,
          (p0Run content (p0New none)).udata = (addUnicodeData emptyCPMap content 0 65535).data)
      ∧ (∀ (content : String) (p : P0Pool),
          (p0Run content (p0Run content p)).udata = (p0Run content p).udata)
      ∧ (∀ (content : String) (p : P0Pool),
          (p0Run content p).items = p.items ++ p0SeedList ((p0Run content p).udata)
            ∧ ∀ it ∈ p0SeedList ((p0Run content p).udata),
                it.weight = 1 ∧ (((p0Run content p).udata) it.id).isSome) := by
  refine ⟨buildBMPItems_eq, bmpSeedList_mem, bmpSeedList_sorted, fun content u => rfl,
    fun content => rfl, ?_, ?_⟩
  · intro content p
    rw [p0Run_udata content (p0Run content p), p0Run_udataDone]
    simp
  · intro content p
    constructor
    · rw [p0Run_items content p, p0Run_udata content p]
      exact p0Seed_eq _ p.items
    · intro it hit
      exact p0SeedList_mem _ it hit

/-- Witness for C7: an externally supplied (empty) index is used as-is. -/
theorem bmp_pool_seeding_witness :
    (p0Run "" (p0New (some emptyCPMap))).udata = emptyCPMap :=
  bmp_pool_seeding.2.2.2.1 "" emptyCPMap

/-! Block-loader analysis. -/

/-- The truncated remainder of a positive divisor exceeds its negation. -/
theorem tmod_gt_neg (a m : Int) (hm : 0 < m) : -m < a.tmod m := by
  cases a with
  | ofNat k =>
    have h : 0 ≤ (Int.ofNat k).tmod m := Int.tmod_nonneg m (Int.ofNat_nonneg k)
    linarith
  | negSucc k =>
    cases m with
    | ofNat p =>
      rw [Int.ofNat_eq_natCast] at hm ⊢
      have hp : 0 < p := by exact_mod_cast hm
      have heq : (Int.negSucc k).tmod ((p : Nat) : Int) = -((((k + 1) % p : Nat)) : Int) := rfl
      rw [heq]
      have hlt : (k + 1) % p < p := Nat.mod_lt _ hp
      omega
    | negSucc p =>
      exfalso
      exact absurd hm (by exact Int.not_lt.mpr (le_of_lt (Int.negSucc_lt_zero p)))

/-- The floor-mod helper really is a floor mod: its value lies in [0, m). -/
theorem jsMod_bounds (n m : Int) (hm : 0 < m) : 0 ≤ jsMod n m ∧ jsMod n m < m := by
  unfold jsMod
  have h1 : -m < n.tmod m := tmod_gt_neg n m hm
  have h2 : n.tmod m < m := Int.tmod_lt_of_pos n hm
  have h3 : (0 : Int) ≤ n.tmod m + m := by linarith
  rw [Int.tmod_eq_emod h3 (le_of_lt hm)]
  exact ⟨Int.emod_nonneg _ (by omega), Int.emod_lt_of_pos _ hm⟩

/-- Fuel-driven hex rendering of n < 16 ^ k takes at most k digits. -/
theorem hexCharsFuel_length_le :
    ∀ (fuel n k : Nat), n < 16 ^ k → (hexCharsFuel fuel n).length ≤ k := by
  intro fuel
  induction fuel with
  | zero =>
    intro n k h
    simp [hexCharsFuel]
  | succ f ih =>
    intro n k h
    cases n with
    | zero => simp [hexCharsFuel]
    | succ m =>
      obtain ⟨k', rfl⟩ : ∃ k', k = k' + 1 := by
        refine ⟨k - 1, ?_⟩
        rcases Nat.eq_zero_or_pos k with hk | hk
        · subst hk
          simp at h
        · omega
      have hdiv : (m + 1) / 16 < 16 ^ k' := by
        rw [Nat.div_lt_iff_lt_mul (by norm_num)]
        calc m + 1 < 16 ^ (k' + 1) := h
        _ = 16 ^ k' * 16 := by rw [pow_succ]
      have hrec := ih ((m + 1) / 16) k' hdiv
      simp only [hexCharsFuel, List.length_append, List.length_cons, List.length_nil]
      omega

/-- natToHex of a value below 16 ^ 6 takes at most six characters. -/
theorem natToHex_length_le (n : Nat) (h : n < 16 ^ 6) : (natToHex n).data.length ≤ 6 := by
  unfold natToHex
  by_cases h0 : n = 0
  · rw [if_pos h0]
    decide
  · rw [if_neg h0]
    exact hexCharsFuel_length_le n n 6 h

/-- padStart6 pads to length exactly max 6 (input length). -/
theorem padStart6_length (s : String) : (padStart6 s).data.length = max 6 s.data.length := by
  simp [padStart6, String.data_append]
  omega

/-- A loader-assigned color string is seven characters long. -/
theorem blockColorOf_length (nm : String) : (blockColorOf nm).data.length = 7 := by
  have hb := jsMod_bounds (jsStringHash nm) 0xFFFFFF (by norm_num)
  have hv : (jsMod (jsStringHash nm) 0xFFFFFF).toNat < 16 ^ 6 := by
    have h16 : (16 : Nat) ^ 6 = 16777216 := by norm_num
    omega
  have hlen := natToHex_length_le _ hv
  unfold blockColorOf
  rw [String.data_append, List.length_append, padStart6_length]
  have h1 : ("#" : String).data.length = 1 := rfl
  rw [h1]
  omega

/-- Every block the loader has built carries the name it was parsed with
and the hash-derived color of that name. -/
theorem blocksFold_colors :
    ∀ (lines : List String) (st : BlocksState),
      (∀ b ∈ st.blocks, ∃ nm, b.name = some nm ∧ b.color = blockColorOf nm) →
      ∀ b ∈ (lines.foldl blocksStep st).blocks,
        ∃ nm, b.name = some nm ∧ b.color = blockColorOf nm := by
  intro lines
  induction lines with
  | nil => intro st h; exact h
  | cons l t ih =>
    intro st h
    apply ih
    by_cases hcr : st.crashed = true
    · simpa [blocksStep, hcr] using h
    rw [Bool.not_eq_true] at hcr
    by_cases hsk : (jsStartsWith l "#" || isBlank l) = true
    · simpa [blocksStep, hcr, hsk] using h
    rw [Bool.not_eq_true] at hsk
    cases hn : (parseBlock l).name with
    | none => simpa [blocksStep, hcr, hsk, hn] using h
    | some nm =>
      have hstep : blocksStep st l
          = { st with
              blocks := st.blocks
                ++ [{ parseBlock l with id := st.nextId, color := blockColorOf nm }]
              nextId := st.nextId + 1 } := by
        simp [blocksStep, hcr, hsk, hn]
      rw [hstep]
      intro b hb
      dsimp only at hb
      rw [List.mem_append] at hb
      rcases hb with hb | hb
      · exact h b hb
      · rw [List.mem_singleton] at hb
        subst hb
        exact ⟨nm, hn, rfl⟩

/-- C8 (amended).  Every color the block loader assigns is deterministic in
the block's name: the # prefix plus the six-digit zero-padded lowercase hex
of jsMod (jsStringHash name) 0xFFFFFF, a value in [0, 0xFFFFFE]; the color
string always has seven characters.  jsStringHash is the source's reduce
with the JS 32-bit shift, not the spec's unbounded hash * 31 + charCode. -/
theorem block_color_hash :
    ∀ (content : String), ∀ b ∈ (loadBlocks content).blocks,
      ∃ nm, b.name = some nm
        ∧ b.color = blockColorOf nm
        ∧ blockColorOf nm = "#" ++ padStart6 (natToHex ((jsMod (jsStringHash nm) 0xFFFFFF).toNat))
        ∧ 0 ≤ jsMod (jsStringHash nm) 0xFFFFFF
        ∧ jsMod (jsStringHash nm) 0xFFFFFF ≤ 0xFFFFFE
        ∧ (b.color).data.length = 7 := by
  intro content b hb
  obtain ⟨nm, hnm, hcol⟩ :=
    blocksFold_colors (jsSplit content "\n") ⟨[], 0, false⟩ (by intro b hb; simp at hb) b hb
  have hbounds := jsMod_bounds (jsStringHash nm) 0xFFFFFF (by norm_num)
  refine ⟨nm, hnm, hcol, rfl, hbounds.1, by omega, ?_⟩
  rw [hcol]
  exact blockColorOf_length nm

set_option maxRecDepth 4096 in
/-- Counterexample to C8 as stated: on the name "Basic Latin" the loader's
color differs from the spec's simple polynomial hash, because the source
hashes with the 32-bit JS shift. -/
theorem block_color_hash_counterexample :
    ((loadBlocks "0000..007F;Basic Latin").blocks.map BlockData.color) = ["#e4072a"]
      ∧ specSimpleColor "Basic Latin" = "#8c04f4"
      ∧ ("#e4072a" : String) ≠ "#8c04f4" := by
  refine ⟨by decide, by decide, by decide⟩

set_option maxRecDepth 4096 in
/-- Witness for C8 on the single-block file defining Basic Latin. -/
theorem block_color_hash_witness :
    ("#e4072a" : String) = blockColorOf "Basic Latin"
      ∧ 0 ≤ jsMod (jsStringHash "Basic Latin") 0xFFFFFF := by
  obtain ⟨nm, hnm, hcol, _, hnn, _, _⟩ :=
    block_color_hash "0000..007F;Basic Latin"
      ⟨0, some 0, some 127, some "Basic Latin", "#e4072a"⟩ (by decide)
  have : nm = "Basic Latin" := by
    have h := hnm
    simp at h
    exact h.symm
  subst this
  exact ⟨hcol, hnn⟩

/-! Round-trip analysis of the code-point parser. -/

/-- The fifteen fields of a parsed record rendered back: the id as JS hex
(the string "NaN" when parsing failed, as JS would print it) and the other
fourteen as stored. -/
def serializeFields (c : CodePointData) : List String :=
  [(c.id.map intToHex).getD "NaN", optStr c.name, optStr c.general_category,
   optStr c.canonical_combining_class, optStr c.bidi_class, optStr c.decomposition_type,
   optStr c.decomposition_mapping, optStr c.numeric_type, optStr c.numeric_value,
   optStr c.bidi_mirrored, optStr c.unicode_1_name, optStr c.iso_comment,
   optStr c.simple_uppercase_mapping, optStr c.simple_lowercase_mapping,
   optStr c.simple_titlecase_mapping]

/-- C9 (amended).  A 15-field code-point line whose field 0 parses and is in
canonical JS hex form (lowercase, no leading zeros, exactly what
toString(16) prints) round-trips: parsing and re-serializing returns the
original field strings.  Field 0 must be canonical because parseInt also
accepts upper case, leading zeros, whitespace and an 0x prefix, which
toString(16) never reproduces. -/
theorem parse_serialize_roundtrip :
    ∀ (line : String) (n : Int),
      (jsSplit line ";").length = 15 →
      jsParseIntHex ((jsSplit line ";").getD 0 "") = some n →
      (jsSplit line ";").getD 0 "" = intToHex n →
      serializeFields (parseCodePoint line) = jsSplit line ";" := by
  intro line n hlen hparse hcanon
  apply List.ext_get?
  intro k
  by_cases hk : k < 15
  · have hkl : k < (jsSplit line ";").length := by omega
    have hx : (jsSplit line ";").get? k = some ((jsSplit line ";").get ⟨k, hkl⟩) :=
      List.get?_eq_get hkl
    rcases Nat.eq_zero_or_pos k with rfl | hkpos
    · have hgd : (jsSplit line ";").getD 0 ""
          = (jsSplit line ";").get ⟨0, hkl⟩ := by
        rw [List.getD_eq_get?, hx, Option.getD_some]
      simp only [serializeFields, parseCodePoint, List.get?_cons_zero]
      rw [hparse, hx]
      simp only [Option.map_some', Option.getD_some, Option.some.injEq]
      rw [← hgd, hcanon]
    · have hfield : ∀ m : Nat, m = k →
          some (optStr ((jsSplit line ";").get? k)) = (jsSplit line ";").get? k := by
        intro m hm
        rw [hx]
        simp [optStr]
      interval_cases k <;>
        simpa only [serializeFields, parseCodePoint, List.get?_cons_succ, List.get?_cons_zero]
          using hfield _ rfl
  · have h1 : (serializeFields (parseCodePoint line)).get? k = none := by
      apply List.get?_eq_none.mpr
      simp [serializeFields]
      omega
    have h2 : (jsSplit line ";").get? k = none := List.get?_eq_none.mpr (by omega)
    rw [h1, h2]

set_option maxRecDepth 4096 in
/-- Counterexample to C9 as stated: the valid line for U+0041 written with
its customary leading zero does not round-trip, since the id re-serializes
as "41". -/
theorem parse_serialize_roundtrip_counterexample :
    (jsSplit "0041;LATIN CAPITAL LETTER A;Lu;0;L;;;;;N;;;0061;;0041" ";").length = 15
      ∧ jsParseIntHex "0041" = some 65
      ∧ serializeFields (parseCodePoint "0041;LATIN CAPITAL LETTER A;Lu;0;L;;;;;N;;;0061;;0041")
          ≠ jsSplit "0041;LATIN CAPITAL LETTER A;Lu;0;L;;;;;N;;;0061;;0041" ";" := by
  refine ⟨by decide, by decide, by decide⟩

set_option maxRecDepth 4096 in
/-- Witness for C9 on the canonical-form line for U+0041. -/
theorem parse_serialize_roundtrip_witness :
    serializeFields (parseCodePoint "41;LATIN CAPITAL LETTER A;Lu;0;L;;;;;N;;;0061;;0041")
      = jsSplit "41;LATIN CAPITAL LETTER A;Lu;0;L;;;;;N;;;0061;;0041" ";" :=
  parse_serialize_roundtrip "41;LATIN CAPITAL LETTER A;Lu;0;L;;;;;N;;;0061;;0041" 65
    (by decide) (by decide) (by decide)

/-! Card composition analysis. -/

/-- C4.  getCardData is absent exactly when the code point is absent; on a
present id (over an index whose blocks carry non-empty names and colors, as
the loaders produce) the card holds the record's name, the id decoded to a
single UTF-16 code unit, the containing block's color or #ffffff, and a
description of a Name line, a Block line ("Unknown" without a block) and
one line per CJK reading (tag without its first character, colon-space,
text); with zero readings the description is exactly the Name and Block
lines followed by the trailing newline the empty join leaves. -/
theorem getCardData_composition :
    ∀ (u : UnicodeData) (id : Int),
      (∀ b ∈ u.blocks, ∃ s, b.name = some s ∧ s ≠ "") →
      (∀ b ∈ u.blocks, b.color ≠ "") →
      ((getCardData u id = none ↔ getCodePoint u id = none)
        ∧ (∀ cpd, getCodePoint u id = some cpd →
            getCardData u id = some
              { id := id
                name := cpd.name
                description := "Name: " ++ optStr cpd.name ++ "\nBlock: "
                  ++ (match getBlock u id with
                      | some b => optStr b.name
                      | none => "Unknown")
                  ++ "\n" ++ joinSep "\n" ((getCJKReading u id).map
                      (fun r => strDrop r.field 1 ++ ": " ++ r.text))
                char := (id.emod 65536).toNat
                blockName := (match getBlock u id with
                    | some b => optStr b.name
                    | none => "")
                blockColor := (match getBlock u id with
                    | some b => b.color
                    | none => "#ffffff") })
        ∧ (∀ cpd, getCodePoint u id = some cpd → getCJKReading u id = [] →
            (getCardData u id).map CardData.description
              = some ("Name: " ++ optStr cpd.name ++ "\nBlock: "
                  ++ (match getBlock u id with
                      | some b => optStr b.name
                      | none => "Unknown") ++ "\n"))) := by
  intro u id hbn hbc
  have hcard : ∀ cpd, getCodePoint u id = some cpd →
      getCardData u id = some
        { id := id
          name := cpd.name
          description := "Name: " ++ optStr cpd.name ++ "\nBlock: "
            ++ (match getBlock u id with
                | some b => optStr b.name
                | none => "Unknown")
            ++ "\n" ++ joinSep "\n" ((getCJKReading u id).map
                (fun r => strDrop r.field 1 ++ ": " ++ r.text))
          char := (id.emod 65536).toNat
          blockName := (match getBlock u id with
              | some b => optStr b.name
              | none => "")
          blockColor := (match getBlock u id with
              | some b => b.color
              | none => "#ffffff") } := by
    intro cpd hcpd
    unfold getCardData
    rw [hcpd]
    cases hb : getBlock u id with
    | none =>
      simp [jsOrElse, fromCharCode16]
    | some b =>
      have hmem : b ∈ u.blocks := List.mem_of_find?_eq_some hb
      obtain ⟨s, hs, hsne⟩ := hbn b hmem
      have hc := hbc b hmem
      simp [jsOrElse, fromCharCode16, hs, hsne, hc, optStr]
  refine ⟨?_, hcard, ?_⟩
  · unfold getCardData
    cases h : getCodePoint u id <;> simp
  · intro cpd hcpd hcjk
    rw [hcard cpd hcpd]
    rw [hcjk]
    simp [joinSep]

/-- A one-record, one-block index used by the C4 witness. -/
def sampleIndex : UnicodeData :=
  ⟨fun i => if i = 65 then
      some (parseCodePoint "0041;LATIN CAPITAL LETTER A;Lu;0;L;;;;;N;;;0061;;0041")
    else none,
   [⟨0, some 0, some 127, some "Basic Latin", "#e4072a"⟩],
   fun _ => []⟩

set_option maxRecDepth 4096 in
/-- Witness for C4: the full card of U+0041 in sampleIndex, with the
two-line description and its trailing newline. -/
theorem getCardData_composition_witness :
    getCardData sampleIndex 65 = some
      { id := 65
        name := some "LATIN CAPITAL LETTER A"
        description := "Name: LATIN CAPITAL LETTER A\nBlock: Basic Latin\n"
        char := 65
        blockName := "Basic Latin"
        blockColor := "#e4072a" } := by
  have hbn : ∀ b ∈ sampleIndex.blocks, ∃ s, b.name = some s ∧ s ≠ "" := by
    intro b hb
    have : b = ⟨0, some 0, some 127, some "Basic Latin", "#e4072a"⟩ := by
      simpa [sampleIndex] using hb
    subst this
    exact ⟨"Basic Latin", rfl, by decide⟩
  have hbc : ∀ b ∈ sampleIndex.blocks, b.color ≠ "" := by
    intro b hb
    have : b = ⟨0, some 0, some 127, some "Basic Latin", "#e4072a"⟩ := by
      simpa [sampleIndex] using hb
    subst this
    decide
  have h := (getCardData_composition sampleIndex 65 hbn hbc).2.1
    (parseCodePoint "0041;LATIN CAPITAL LETTER A;Lu;0;L;;;;;N;;;0061;;0041") rfl
  rw [h]
  decide

end UniGacha
